import Mathlib

/-!
Verification of the indentation-path enumerator of the Bulk-Subtags add-on
(`src/__init__.py`).  Python strings are modelled as `List Char`; the two
fixed-length-50 Python lists `counters` and `levels` are modelled as total
functions out of `Nat` together with the explicit bound check that mirrors
the `IndexError` raised by `counters[indent_level] += 1` when
`indent_level >= 50`; fallible evaluation is `Option`.
-/

set_option maxRecDepth 8000

namespace BulkSubtags

/-- Characters stripped by Python's `str.strip()` (the ASCII whitespace
characters that can occur in this program's inputs: space, tab, CR, LF). -/
def pyIsWS (c : Char) : Bool := c.isWhitespace

/-- Python `s.strip()`: drop whitespace from both ends. -/
def pyStrip (l : List Char) : List Char :=
  (((l.dropWhile pyIsWS).reverse).dropWhile pyIsWS).reverse

/-- Python `"::".join(segments)` (source line 189). -/
def pyJoin : List (List Char) → List Char
  | [] => []
  | [s] => s
  | s :: ss => s ++ ':' :: ':' :: pyJoin ss

/-- Embedding of `replace_spaces_with_underscores` (source lines 147-148):
`s.replace(" ", "_")`, a character-wise replacement. -/
def replace_spaces_with_underscores (s : List Char) : List Char :=
  s.map (fun c => if c = ' ' then '_' else c)

/-- First loop of `parse_indentation_level` (source lines 151-158): weight of
the leading whitespace run, 1 per space and 4 per tab, stopping at the first
character that is neither. -/
def leadingSpaces : List Char → Nat
  | [] => 0
  | c :: cs =>
    if c = ' ' then 1 + leadingSpaces cs
    else if c = '\t' then 4 + leadingSpaces cs
    else 0

/-- Second loop of `parse_indentation_level` (source lines 160-169): walk the
whole line, consuming spaces (weight 1) and tabs (weight 4) while the removal
budget `toRemove` is not exhausted, keeping every other character. -/
def removeIndent (toRemove : Nat) : List Char → Nat → List Char
  | [], _ => []
  | c :: cs, removed =>
    if c = ' ' ∧ removed < toRemove then removeIndent toRemove cs (removed + 1)
    else if c = '\t' ∧ removed + 4 ≤ toRemove then removeIndent toRemove cs (removed + 4)
    else c :: removeIndent toRemove cs removed

/-- Embedding of `parse_indentation_level` (source lines 150-171): returns the
indentation level (`leading_spaces // 4`) and the stripped content. -/
def parse_indentation_level (line : List Char) : Nat × List Char :=
  (leadingSpaces line / 4, pyStrip (removeIndent (leadingSpaces line) line 0))

/-- Python `f"{n:02d}"`: the decimal digits of `n`, left-padded with `'0'` to
width two (source line 186). -/
def formatCounter (n : Nat) : List Char :=
  List.replicate (2 - (Nat.toDigits 10 n).length) '0' ++ Nat.toDigits 10 n

/-- The mutable per-call state of `parse_indented_subtags_enumerate_all`: the
Python lists `counters = [0]*50` and `levels = [None]*50`, as functions. -/
structure PState where
  counters : Nat → Nat
  levels : Nat → Option (List Char)

/-- State at the top of `parse_indented_subtags_enumerate_all` (lines 174-175). -/
def initState : PState := ⟨fun _ => 0, fun _ => none⟩

/-- Reset loop for `counters` (source lines 181-182): `counters[i] = 0` for
every `i` in `range(indent_level + 1, 50)`. -/
def resetFrom (lvl : Nat) (counters : Nat → Nat) : Nat → Nat :=
  fun i => if lvl + 1 ≤ i ∧ i < 50 then 0 else counters i

/-- Reset loop for `levels` (source lines 181, 183): `levels[i] = None` for
every `i` in `range(indent_level + 1, 50)`. -/
def resetFromO (lvl : Nat) (levels : Nat → Option (List Char)) : Nat → Option (List Char) :=
  fun i => if lvl + 1 ≤ i ∧ i < 50 then none else levels i

/-- Source line 184: `counters[indent_level] += 1`. -/
def incAt (lvl : Nat) (counters : Nat → Nat) : Nat → Nat :=
  fun i => if i = lvl then counters i + 1 else counters i

/-- Source line 187: `levels[indent_level] = enumerated_name`. -/
def setAt (lvl : Nat) (name : List Char) (levels : Nat → Option (List Char)) :
    Nat → Option (List Char) :=
  fun i => if i = lvl then some name else levels i

/-- Source lines 185-186: `enumerated_name = f"{counters[indent_level]:02d}_{content}"`
with `content = replace_spaces_with_underscores(raw_content)`, evaluated after the
reset loop and the increment. -/
def newSegName (st : PState) (lvl : Nat) (raw : List Char) : List Char :=
  formatCounter (incAt lvl (resetFrom lvl st.counters) lvl) ++
    '_' :: replace_spaces_with_underscores raw

/-- The state after one non-blank, in-bounds line (source lines 181-187). -/
def stepState (st : PState) (lvl : Nat) (raw : List Char) : PState :=
  ⟨incAt lvl (resetFrom lvl st.counters),
   setAt lvl (newSegName st lvl raw) (resetFromO lvl st.levels)⟩

/-- Python truthiness filter `if levels[i]` of source line 188: keep the entry
when it is neither `None` nor the empty string. -/
def truthy (o : Option (List Char)) : Option (List Char) :=
  match o with
  | some s => if s = [] then none else some s
  | none => none

/-- Source lines 188-189: `"::".join(levels[i] for i in range(indent_level + 1)
if levels[i])`, evaluated on the already-updated state. -/
def stepPath (st : PState) (lvl : Nat) : List Char :=
  pyJoin ((List.range (lvl + 1)).filterMap (fun i => truthy (st.levels i)))

/-- One iteration of the main loop of `parse_indented_subtags_enumerate_all`
(source lines 177-190).  Returns `none` when the iteration raises `IndexError`
(`counters[indent_level] += 1` with `indent_level ≥ 50`, the arrays having
length 50), otherwise the updated state and the path appended to `results`
(or `none` for a skipped blank line). -/
def stepLine (st : PState) (line : List Char) : Option (PState × Option (List Char)) :=
  let lvl := (parse_indentation_level line).1
  let raw := (parse_indentation_level line).2
  if pyStrip raw = [] then some (st, none)
  else if 50 ≤ lvl then none
  else some (stepState st lvl raw, some (stepPath (stepState st lvl raw) lvl))

/-- The main loop of `parse_indented_subtags_enumerate_all` (lines 177-190):
the list `results` in production order, or `none` on `IndexError`. -/
def runLines (st : PState) : List (List Char) → Option (List (List Char))
  | [] => some []
  | line :: rest =>
    match stepLine st line with
    | none => none
    | some (st', none) => runLines st' rest
    | some (st', some path) => (runLines st' rest).map (path :: ·)

/-- The de-duplication loop of `parse_indented_subtags_enumerate_all`
(source lines 191-196): keep the first occurrence of each path; the Python
`set` `seen` is modelled as a list with membership. -/
def dedupSeen (seen : List (List Char)) : List (List Char) → List (List Char)
  | [] => []
  | r :: rs => if r ∈ seen then dedupSeen seen rs else r :: dedupSeen (r :: seen) rs

/-- Embedding of `parse_indented_subtags_enumerate_all` (source lines 173-197). -/
def parse_indented_subtags_enumerate_all (lines : List (List Char)) : Option (List (List Char)) :=
  (runLines initState lines).map (dedupSeen [])

/-- Embedding of `BulkSubtagDialog.getData` (source lines 482-492): the
parent-tag text is stripped and its spaces replaced by underscores; each
enumerated path is prefixed with `parent::` when the parent tag is non-empty.
The splitting of the text-edit contents into lines is GUI glue; `getData` is
modelled on the already-split line list. -/
def getData (parentText : List Char) (lines : List (List Char)) : Option (List (List Char)) :=
  let parentTag := replace_spaces_with_underscores (pyStrip parentText)
  (parse_indented_subtags_enumerate_all lines).map
    (List.map (fun path => if parentTag = [] then path else parentTag ++ ':' :: ':' :: path))

/-- Renumbering used to state the idempotence property: prefix the `i`-th path
(0-based, after `k` earlier level-0 lines) with a fresh level-0 sibling counter
`formatCounter (k + i + 1)` and an underscore, leaving the path otherwise
unchanged. -/
def renumberFlat (k : Nat) : List (List Char) → List (List Char)
  | [] => []
  | p :: ps => (formatCounter (k + 1) ++ '_' :: p) :: renumberFlat (k + 1) ps

/-- Position of the first occurrence of `a` in `l` (length of `l` when absent),
used to state the first-occurrence ordering of the de-duplicated output. -/
def firstIndexOf (l : List (List Char)) (a : List Char) : Nat :=
  match l with
  | [] => 0
  | x :: xs => if x = a then 0 else firstIndexOf xs a + 1

/-- Shape invariant of every segment name stored in `levels`: a sibling counter
of at least 1 rendered by `formatCounter`, an underscore, and a non-empty,
space-free content whose last character is not whitespace. -/
def SegOK (s : List Char) : Prop :=
  ∃ c w, 1 ≤ c ∧ s = formatCounter c ++ '_' :: w ∧ w ≠ [] ∧
    (∀ ch ∈ w, ch ≠ ' ') ∧ (∀ ch ∈ w.getLast?, pyIsWS ch = false)

/-- Shape invariant of every produced path: a `::`-join of a non-empty list of
well-formed segments. -/
def PathOK (p : List Char) : Prop :=
  ∃ segs, segs ≠ [] ∧ p = pyJoin segs ∧ ∀ s ∈ segs, SegOK s

/-- State invariant: every stored level name is a well-formed segment. -/
def StInv (st : PState) : Prop :=
  ∀ i s, st.levels i = some s → SegOK s

/-- A line that re-enters the parser unchanged: indentation level 0 and content
equal to the whole line.  Every produced path is such a line. -/
def FlatLine (p : List Char) : Prop :=
  parse_indentation_level p = (0, p) ∧ pyStrip p = p ∧ p ≠ [] ∧
    replace_spaces_with_underscores p = p

/-! ### Toolbox: Python `strip` -/

lemma dropWhile_head?_not {α : Type} (p : α → Bool) :
    ∀ (l : List α), ∀ c ∈ (l.dropWhile p).head?, p c = false := by
  intro l
  induction l with
  | nil => simp
  | cons a t ih =>
    by_cases h : p a
    · simpa [List.dropWhile_cons_of_pos h] using ih
    · simp only [List.dropWhile_cons_of_neg h, List.head?_cons, Option.mem_def,
        Option.some.injEq]
      rintro c rfl
      exact Bool.eq_false_iff.2 h

lemma getLast?_dropWhile {α : Type} (p : α → Bool) :
    ∀ (l : List α), l.dropWhile p ≠ [] → (l.dropWhile p).getLast? = l.getLast? := by
  intro l
  induction l with
  | nil => simp
  | cons a t ih =>
    intro hne
    by_cases h : p a
    · rw [List.dropWhile_cons_of_pos h] at hne ⊢
      rw [ih hne]
      cases t with
      | nil => simp at hne
      | cons b u => simp
    · rw [List.dropWhile_cons_of_neg h]

lemma pyStrip_nil : pyStrip [] = [] := rfl

lemma pyStrip_eq_self {l : List Char}
    (h1 : ∀ c ∈ l.head?, pyIsWS c = false)
    (h2 : ∀ c ∈ l.getLast?, pyIsWS c = false) : pyStrip l = l := by
  have step1 : l.dropWhile pyIsWS = l := by
    cases l with
    | nil => rfl
    | cons a t =>
      have := h1 a (by simp)
      exact List.dropWhile_cons_of_neg (by simp [this])
  have step2 : l.reverse.dropWhile pyIsWS = l.reverse := by
    cases hrev : l.reverse with
    | nil => rfl
    | cons a t =>
      have ha : a ∈ l.getLast? := by
        rw [← List.head?_reverse, hrev]; rfl
      rw [← hrev]
      have := h2 a ha
      rw [hrev]
      exact List.dropWhile_cons_of_neg (by simp [this])
  rw [pyStrip, step1, step2, List.reverse_reverse]

lemma pyStrip_getLast?_not (l : List Char) :
    ∀ c ∈ (pyStrip l).getLast?, pyIsWS c = false := by
  intro c hc
  rw [pyStrip, List.getLast?_reverse] at hc
  exact dropWhile_head?_not pyIsWS _ c hc

lemma pyStrip_head?_not (l : List Char) (hne : pyStrip l ≠ []) :
    ∀ c ∈ (pyStrip l).head?, pyIsWS c = false := by
  intro c hc
  rw [pyStrip, List.head?_reverse] at hc
  rw [getLast?_dropWhile pyIsWS _ (by simpa [pyStrip] using hne), List.getLast?_reverse] at hc
  exact dropWhile_head?_not pyIsWS _ c hc

lemma pyStrip_idem (l : List Char) : pyStrip (pyStrip l) = pyStrip l := by
  by_cases h : pyStrip l = []
  · rw [h]; rfl
  · exact pyStrip_eq_self (pyStrip_head?_not l h) (pyStrip_getLast?_not l)

lemma pyStrip_eq_nil_of_ws {l : List Char} (h : ∀ c ∈ l, pyIsWS c = true) :
    pyStrip l = [] := by
  rw [pyStrip, List.dropWhile_eq_nil_iff.2 h]
  rfl

/-! ### Toolbox: `parse_indentation_level` -/

lemma removeIndent_sublist (toRemove : Nat) :
    ∀ (l : List Char) (k : Nat), List.Sublist (removeIndent toRemove l k) l := by
  intro l
  induction l with
  | nil => intro k; simp [removeIndent]
  | cons c cs ih =>
    intro k
    rw [removeIndent]
    split
    · exact (ih (k + 1)).cons c
    · split
      · exact (ih (k + 4)).cons c
      · exact (ih k).cons₂ c

lemma removeIndent_zero : ∀ (l : List Char) (k : Nat), removeIndent 0 l k = l := by
  intro l
  induction l with
  | nil => intro k; rfl
  | cons c cs ih =>
    intro k
    rw [removeIndent]
    have h1 : ¬(c = ' ' ∧ k < 0) := by simp
    have h2 : ¬(c = '\t' ∧ k + 4 ≤ 0) := by simp
    rw [if_neg h1, if_neg h2, ih]

lemma parse_snd_blank {line : List Char} (h : ∀ c ∈ line, pyIsWS c = true) :
    (parse_indentation_level line).2 = [] := by
  have hsub := removeIndent_sublist (leadingSpaces line) line 0
  exact pyStrip_eq_nil_of_ws (fun c hc => h c (hsub.subset hc))

lemma leadingSpaces_cons_other {c : Char} (h1 : c ≠ ' ') (h2 : c ≠ '\t') (cs : List Char) :
    leadingSpaces (c :: cs) = 0 := by
  rw [leadingSpaces, if_neg h1, if_neg h2]

/-! ### Toolbox: digits and `formatCounter` -/

lemma digitChar_isDigit {m : Nat} (h : m < 10) : (Nat.digitChar m).isDigit = true := by
  interval_cases m <;> decide

lemma toDigitsCore_digits :
    ∀ (fuel n : Nat) (ds : List Char), (∀ c ∈ ds, c.isDigit = true) →
      ∀ c ∈ Nat.toDigitsCore 10 fuel n ds, c.isDigit = true := by
  intro fuel
  induction fuel with
  | zero => intro n ds h; exact h
  | succ fuel ih =>
    intro n ds h c hc
    rw [Nat.toDigitsCore] at hc
    have hd : (Nat.digitChar (n % 10)).isDigit = true :=
      digitChar_isDigit (Nat.mod_lt _ (by norm_num))
    have hds : ∀ x ∈ Nat.digitChar (n % 10) :: ds, x.isDigit = true := by
      intro x hx
      rcases List.mem_cons.1 hx with rfl | hx
      · exact hd
      · exact h x hx
    by_cases hz : n / 10 = 0
    · rw [if_pos hz] at hc
      exact hds c hc
    · rw [if_neg hz] at hc
      exact ih _ _ hds c hc

lemma formatCounter_digits (n : Nat) : ∀ c ∈ formatCounter n, c.isDigit = true := by
  intro c hc
  rw [formatCounter] at hc
  rcases List.mem_append.1 hc with hc | hc
  · rw [List.eq_of_mem_replicate hc]; decide
  · exact toDigitsCore_digits _ _ [] (by simp) c hc

lemma isDigit_facts {c : Char} (h : c.isDigit = true) :
    pyIsWS c = false ∧ c ≠ '_' ∧ c ≠ ' ' ∧ c ≠ '\t' := by
  have hs : c ≠ ' ' := by rintro rfl; exact absurd h (by decide)
  have ht : c ≠ '\t' := by rintro rfl; exact absurd h (by decide)
  have hr : c ≠ '\r' := by rintro rfl; exact absurd h (by decide)
  have hn : c ≠ '\n' := by rintro rfl; exact absurd h (by decide)
  have hu : c ≠ '_' := by rintro rfl; exact absurd h (by decide)
  refine ⟨?_, hu, hs, ht⟩
  simp [pyIsWS, Char.isWhitespace, hs, ht, hr, hn]

/-! ### Toolbox: the de-duplication loop -/

lemma dedupSeen_sublist :
    ∀ (l seen : List (List Char)), List.Sublist (dedupSeen seen l) l := by
  intro l
  induction l with
  | nil => intro seen; simp [dedupSeen]
  | cons r rs ih =>
    intro seen
    rw [dedupSeen]
    split
    · exact (ih seen).cons r
    · exact (ih (r :: seen)).cons₂ r

lemma mem_dedupSeen :
    ∀ (l seen : List (List Char)) (a : List Char),
      a ∈ dedupSeen seen l ↔ a ∈ l ∧ a ∉ seen := by
  intro l
  induction l with
  | nil => intro seen a; simp [dedupSeen]
  | cons r rs ih =>
    intro seen a
    by_cases hr : r ∈ seen
    · rw [dedupSeen, if_pos hr, ih]
      constructor
      · rintro ⟨h1, h2⟩; exact ⟨List.mem_cons_of_mem r h1, h2⟩
      · rintro ⟨h1, h2⟩
        rcases List.mem_cons.1 h1 with he | h1
        · exact absurd (he ▸ hr) h2
        · exact ⟨h1, h2⟩
    · rw [dedupSeen, if_neg hr]
      constructor
      · intro h
        rcases List.mem_cons.1 h with he | h
        · exact ⟨he ▸ List.mem_cons_self r rs, he ▸ hr⟩
        · rcases (ih (r :: seen) a).1 h with ⟨h1, h2⟩
          exact ⟨List.mem_cons_of_mem r h1, fun hc => h2 (List.mem_cons_of_mem r hc)⟩
      · rintro ⟨h1, h2⟩
        by_cases har : a = r
        · exact har ▸ List.mem_cons_self r _
        · rcases List.mem_cons.1 h1 with he | h1
          · exact absurd he har
          · refine List.mem_cons_of_mem r ((ih (r :: seen) a).2 ⟨h1, ?_⟩)
            intro hc
            rcases List.mem_cons.1 hc with he | hc
            · exact har he
            · exact h2 hc

lemma dedupSeen_nodup : ∀ (l seen : List (List Char)), (dedupSeen seen l).Nodup := by
  intro l
  induction l with
  | nil => intro seen; simp [dedupSeen]
  | cons r rs ih =>
    intro seen
    rw [dedupSeen]
    split
    · exact ih seen
    · refine List.nodup_cons.2 ⟨?_, ih (r :: seen)⟩
      intro hc
      exact ((mem_dedupSeen rs (r :: seen) r).1 hc).2 (List.mem_cons_self r seen)

lemma firstIndexOf_cons_ne {r a : List Char} (rs : List (List Char)) (h : r ≠ a) :
    firstIndexOf (r :: rs) a = firstIndexOf rs a + 1 := by
  rw [firstIndexOf, if_neg h]

lemma dedupSeen_pairwise :
    ∀ (l seen : List (List Char)),
      (dedupSeen seen l).Pairwise (fun a b => firstIndexOf l a < firstIndexOf l b) := by
  intro l
  induction l with
  | nil => intro seen; simp [dedupSeen]
  | cons r rs ih =>
    intro seen
    by_cases hr : r ∈ seen
    · rw [dedupSeen, if_pos hr]
      refine (ih seen).imp_of_mem ?_
      intro a b ha hb hab
      have hane : r ≠ a := fun he => ((mem_dedupSeen rs seen a).1 ha).2 (he ▸ hr)
      have hbne : r ≠ b := fun he => ((mem_dedupSeen rs seen b).1 hb).2 (he ▸ hr)
      rw [firstIndexOf_cons_ne rs hane, firstIndexOf_cons_ne rs hbne]
      exact Nat.succ_lt_succ hab
    · rw [dedupSeen, if_neg hr]
      refine List.pairwise_cons.2 ⟨?_, ?_⟩
      · intro b hb
        have hbne : r ≠ b := fun he =>
          ((mem_dedupSeen rs (r :: seen) b).1 hb).2 (he ▸ List.mem_cons_self r seen)
        rw [firstIndexOf_cons_ne rs hbne]
        have : firstIndexOf (r :: rs) r = 0 := by rw [firstIndexOf, if_pos rfl]
        rw [this]
        exact Nat.succ_pos _
      · refine (ih (r :: seen)).imp_of_mem ?_
        intro a b ha hb hab
        have hane : r ≠ a := fun he =>
          ((mem_dedupSeen rs (r :: seen) a).1 ha).2 (he ▸ List.mem_cons_self r seen)
        have hbne : r ≠ b := fun he =>
          ((mem_dedupSeen rs (r :: seen) b).1 hb).2 (he ▸ List.mem_cons_self r seen)
        rw [firstIndexOf_cons_ne rs hane, firstIndexOf_cons_ne rs hbne]
        exact Nat.succ_lt_succ hab

lemma dedupSeen_eq_self :
    ∀ (l seen : List (List Char)), l.Nodup → (∀ a ∈ l, a ∉ seen) →
      dedupSeen seen l = l := by
  intro l
  induction l with
  | nil => intro seen _ _; rfl
  | cons r rs ih =>
    intro seen hnd hdisj
    rw [dedupSeen, if_neg (hdisj r (List.mem_cons_self r rs))]
    rw [ih (r :: seen) (List.nodup_cons.1 hnd).2]
    intro a ha hc
    rcases List.mem_cons.1 hc with rfl | hc
    · exact (List.nodup_cons.1 hnd).1 ha
    · exact hdisj a (List.mem_cons_of_mem r ha) hc

/-! ### Toolbox: segment and path shape -/

lemma truthy_eq_some {o : Option (List Char)} {s : List Char} (h : truthy o = some s) :
    o = some s ∧ s ≠ [] := by
  match o with
  | none => exact absurd h (by simp [truthy])
  | some t =>
    rw [truthy] at h
    by_cases ht : t = []
    · rw [if_pos ht] at h; exact absurd h (by simp)
    · rw [if_neg ht] at h
      cases h
      exact ⟨rfl, ht⟩

lemma SegOK_ne_nil {s : List Char} (h : SegOK s) : s ≠ [] := by
  rcases h with ⟨c, w, _, rfl, _, _, _⟩
  simp

lemma SegOK_no_space {s : List Char} (h : SegOK s) : ∀ ch ∈ s, ch ≠ ' ' := by
  rcases h with ⟨c, w, _, rfl, _, hw, _⟩
  intro ch hch
  rcases List.mem_append.1 hch with hch | hch
  · exact (isDigit_facts (formatCounter_digits c ch hch)).2.2.1
  · rcases List.mem_cons.1 hch with rfl | hch
    · decide
    · exact hw ch hch

lemma SegOK_head {s : List Char} (h : SegOK s) :
    ∀ ch ∈ s.head?, pyIsWS ch = false ∧ ch ≠ ' ' ∧ ch ≠ '\t' := by
  rcases h with ⟨c, w, _, rfl, _, _, _⟩
  intro ch hch
  cases hfc : formatCounter c with
  | nil =>
    rw [hfc] at hch
    simp only [List.nil_append, List.head?_cons, Option.mem_def, Option.some.injEq] at hch
    subst hch
    refine ⟨by decide, by decide, by decide⟩
  | cons d ds =>
    rw [hfc] at hch
    simp only [List.cons_append, List.head?_cons, Option.mem_def, Option.some.injEq] at hch
    have hdig : d.isDigit = true :=
      formatCounter_digits c d (by rw [hfc]; exact List.mem_cons_self _ _)
    have hf := isDigit_facts hdig
    exact hch ▸ ⟨hf.1, hf.2.2.1, hf.2.2.2⟩

lemma SegOK_getLast? {s : List Char} (h : SegOK s) :
    ∀ ch ∈ s.getLast?, pyIsWS ch = false := by
  rcases h with ⟨c, w, _, rfl, hwne, _, hlast⟩
  intro ch hch
  rcases List.exists_cons_of_ne_nil hwne with ⟨x, xs, rfl⟩
  rw [List.getLast?_append] at hch
  have h1 : ('_' :: x :: xs).getLast? = (x :: xs).getLast? := List.getLast?_cons_cons
  cases hgl : (x :: xs).getLast? with
  | none => simp at hgl
  | some v =>
    rw [h1, hgl] at hch
    simp only [Option.or_some, Option.mem_def, Option.some.injEq] at hch
    exact hch ▸ hlast v (by rw [hgl]; rfl)

lemma pyJoin_cons_cons (s t : List Char) (ss : List (List Char)) :
    pyJoin (s :: t :: ss) = s ++ ':' :: ':' :: pyJoin (t :: ss) := rfl

lemma pyJoin_ne_nil {s0 : List Char} (hne : s0 ≠ []) (ss : List (List Char)) :
    pyJoin (s0 :: ss) ≠ [] := by
  cases ss with
  | nil => exact hne
  | cons t ts =>
    rw [pyJoin_cons_cons]
    simp

lemma pyJoin_head? {s0 : List Char} (hne : s0 ≠ []) (ss : List (List Char)) :
    (pyJoin (s0 :: ss)).head? = s0.head? := by
  cases ss with
  | nil => rfl
  | cons t ts =>
    rw [pyJoin_cons_cons, List.head?_append]
    rcases List.exists_cons_of_ne_nil hne with ⟨d, ds, rfl⟩
    rfl

lemma pyJoin_getLast?_not_ws :
    ∀ (ss : List (List Char)) (s0 : List Char), (∀ s ∈ s0 :: ss, SegOK s) →
      ∀ ch ∈ (pyJoin (s0 :: ss)).getLast?, pyIsWS ch = false := by
  intro ss
  induction ss with
  | nil => intro s0 h ch hch; exact SegOK_getLast? (h s0 (by simp)) ch hch
  | cons t ts ih =>
    intro s0 h ch hch
    have hj : pyJoin (t :: ts) ≠ [] := pyJoin_ne_nil (SegOK_ne_nil (h t (by simp))) ts
    rcases List.exists_cons_of_ne_nil hj with ⟨x, xs, hx⟩
    rw [pyJoin_cons_cons, List.getLast?_append, hx] at hch
    have h2 : (':' :: ':' :: x :: xs).getLast? = (x :: xs).getLast? := by
      rw [List.getLast?_cons_cons, List.getLast?_cons_cons]
    cases hgl : (x :: xs).getLast? with
    | none => simp at hgl
    | some v =>
      rw [h2, hgl] at hch
      simp only [Option.or_some, Option.mem_def, Option.some.injEq] at hch
      exact hch ▸ ih t (fun s hs => h s (List.mem_cons_of_mem s0 hs)) v (by rw [hx, hgl]; rfl)

lemma pyJoin_no_space :
    ∀ (segs : List (List Char)), (∀ s ∈ segs, ∀ ch ∈ s, ch ≠ ' ') →
      ∀ ch ∈ pyJoin segs, ch ≠ ' ' := by
  intro segs
  induction segs with
  | nil => intro _ ch hch; simp [pyJoin] at hch
  | cons s0 ss ih =>
    cases ss with
    | nil => intro h ch hch; exact h s0 (by simp) ch hch
    | cons t ts =>
      intro h ch hch
      rw [pyJoin_cons_cons] at hch
      rcases List.mem_append.1 hch with hch | hch
      · exact h s0 (by simp) ch hch
      · rcases List.mem_cons.1 hch with rfl | hch
        · decide
        · rcases List.mem_cons.1 hch with rfl | hch
          · decide
          · exact ih (fun s hs => h s (List.mem_cons_of_mem s0 hs)) ch hch

lemma pathOK_flat {p : List Char} (h : PathOK p) : FlatLine p ∧ (∀ ch ∈ p, ch ≠ ' ') := by
  rcases h with ⟨segs, hne, rfl, hall⟩
  obtain ⟨s0, ss, rfl⟩ := List.exists_cons_of_ne_nil hne
  have hs0 : SegOK s0 := hall s0 (by simp)
  have hs0ne := SegOK_ne_nil hs0
  have hnospace : ∀ ch ∈ pyJoin (s0 :: ss), ch ≠ ' ' :=
    pyJoin_no_space _ (fun s hs => SegOK_no_space (hall s hs))
  have hjne : pyJoin (s0 :: ss) ≠ [] := pyJoin_ne_nil hs0ne ss
  have hhead : ∀ ch ∈ (pyJoin (s0 :: ss)).head?, pyIsWS ch = false ∧ ch ≠ ' ' ∧ ch ≠ '\t' := by
    rw [pyJoin_head? hs0ne]
    exact SegOK_head hs0
  have hlast : ∀ ch ∈ (pyJoin (s0 :: ss)).getLast?, pyIsWS ch = false :=
    pyJoin_getLast?_not_ws ss s0 hall
  obtain ⟨d, rest, hp⟩ := List.exists_cons_of_ne_nil hjne
  have hd' := hhead d (by rw [hp]; rfl)
  have hlead : leadingSpaces (pyJoin (s0 :: ss)) = 0 := by
    rw [hp]
    exact leadingSpaces_cons_other hd'.2.1 hd'.2.2 rest
  have hstrip : pyStrip (pyJoin (s0 :: ss)) = pyJoin (s0 :: ss) :=
    pyStrip_eq_self (fun c hc => (hhead c hc).1) hlast
  have hparse : parse_indentation_level (pyJoin (s0 :: ss)) = (0, pyJoin (s0 :: ss)) := by
    rw [parse_indentation_level, hlead, removeIndent_zero, hstrip]
  have hrepl : replace_spaces_with_underscores (pyJoin (s0 :: ss)) = pyJoin (s0 :: ss) := by
    rw [replace_spaces_with_underscores]
    exact (List.map_congr_left (fun a ha => if_neg (hnospace a ha))).trans (List.map_id _)
  exact ⟨⟨hparse, hstrip, hjne, hrepl⟩, hnospace⟩

/-! ### Toolbox: the main loop -/

lemma stepLine_blank {st : PState} {line : List Char}
    (h : pyStrip (parse_indentation_level line).2 = []) :
    stepLine st line = some (st, none) := by
  simp only [stepLine]
  rw [if_pos h]

lemma stepLine_deep {st : PState} {line : List Char}
    (h1 : ¬ pyStrip (parse_indentation_level line).2 = [])
    (h2 : 50 ≤ (parse_indentation_level line).1) :
    stepLine st line = none := by
  simp only [stepLine]
  rw [if_neg h1, if_pos h2]

lemma stepLine_main {st : PState} {line : List Char}
    (h1 : ¬ pyStrip (parse_indentation_level line).2 = [])
    (h2 : ¬ 50 ≤ (parse_indentation_level line).1) :
    stepLine st line = some
      (stepState st (parse_indentation_level line).1 (parse_indentation_level line).2,
       some (stepPath (stepState st (parse_indentation_level line).1
         (parse_indentation_level line).2) (parse_indentation_level line).1)) := by
  simp only [stepLine]
  rw [if_neg h1, if_neg h2]

lemma newSegName_SegOK (st : PState) (lvl : Nat) {raw : List Char} (hraw : raw ≠ [])
    (hlast : ∀ ch ∈ raw.getLast?, pyIsWS ch = false) : SegOK (newSegName st lvl raw) := by
  refine ⟨incAt lvl (resetFrom lvl st.counters) lvl, replace_spaces_with_underscores raw,
    ?_, rfl, ?_, ?_, ?_⟩
  · rw [incAt, if_pos rfl]
    exact Nat.succ_le_succ (Nat.zero_le _)
  · simp [replace_spaces_with_underscores, hraw]
  · intro ch hch
    rcases List.mem_map.1 hch with ⟨x, hx, rfl⟩
    by_cases hxs : x = ' '
    · simp [hxs]
    · simp [hxs]
  · intro ch hch
    rw [replace_spaces_with_underscores, List.getLast?_map] at hch
    cases hgl : raw.getLast? with
    | none => rw [hgl] at hch; simp at hch
    | some v =>
      rw [hgl] at hch
      simp only [Option.map_some', Option.mem_def, Option.some.injEq] at hch
      subst hch
      have hv := hlast v (by rw [hgl]; rfl)
      have hvs : v ≠ ' ' := by rintro rfl; exact absurd hv (by decide)
      simp only [if_neg hvs]
      exact hv

lemma stepState_StInv {st : PState} {lvl : Nat} {raw : List Char} (hst : StInv st)
    (hraw : raw ≠ []) (hlast : ∀ ch ∈ raw.getLast?, pyIsWS ch = false) :
    StInv (stepState st lvl raw) := by
  intro i s hs
  simp only [stepState, setAt] at hs
  by_cases hi : i = lvl
  · rw [if_pos hi] at hs
    cases hs
    exact newSegName_SegOK st lvl hraw hlast
  · rw [if_neg hi] at hs
    simp only [resetFromO] at hs
    by_cases hr : lvl + 1 ≤ i ∧ i < 50
    · rw [if_pos hr] at hs; cases hs
    · rw [if_neg hr] at hs
      exact hst i s hs

lemma stepState_levels_self (st : PState) (lvl : Nat) (raw : List Char) :
    (stepState st lvl raw).levels lvl = some (newSegName st lvl raw) := by
  simp [stepState, setAt]

lemma newSegName_ne_nil (st : PState) (lvl : Nat) (raw : List Char) :
    newSegName st lvl raw ≠ [] := by
  rw [newSegName]
  simp

lemma stepPath_pathOK {st2 : PState} {lvl : Nat} (hst : StInv st2)
    (hlvl : ∃ nm, st2.levels lvl = some nm ∧ nm ≠ []) : PathOK (stepPath st2 lvl) := by
  rcases hlvl with ⟨nm, hnm, hnmne⟩
  refine ⟨(List.range (lvl + 1)).filterMap (fun i => truthy (st2.levels i)), ?_, rfl, ?_⟩
  · refine List.ne_nil_of_mem (List.mem_filterMap.2 (⟨lvl, ?_, ?_⟩ :
      ∃ i, i ∈ List.range (lvl + 1) ∧ truthy (st2.levels i) = some nm))
    · exact List.mem_range.2 (Nat.lt_succ_self lvl)
    · rw [hnm, truthy, if_neg hnmne]
  · intro s hs
    rcases List.mem_filterMap.1 hs with ⟨i, _, hts⟩
    exact hst i s (truthy_eq_some hts).1

lemma raw_ne_nil_of_guard {line : List Char}
    (hb : ¬ pyStrip (parse_indentation_level line).2 = []) :
    (parse_indentation_level line).2 ≠ [] := by
  intro he
  exact hb (by rw [he]; rfl)

lemma runLines_pathOK :
    ∀ (lines : List (List Char)) (st : PState) (res : List (List Char)), StInv st →
      runLines st lines = some res → ∀ p ∈ res, PathOK p := by
  intro lines
  induction lines with
  | nil =>
    intro st res _ hrun p hp
    simp only [runLines, Option.some.injEq] at hrun
    subst hrun
    simp at hp
  | cons line rest ih =>
    intro st res hst hrun p hp
    by_cases hb : pyStrip (parse_indentation_level line).2 = []
    · simp only [runLines, stepLine_blank hb] at hrun
      exact ih st res hst hrun p hp
    · by_cases hd : 50 ≤ (parse_indentation_level line).1
      · simp only [runLines, stepLine_deep hb hd] at hrun
        exact Option.noConfusion hrun
      · simp only [runLines, stepLine_main hb hd] at hrun
        rcases Option.map_eq_some'.1 hrun with ⟨res', hres', rfl⟩
        have hraw := raw_ne_nil_of_guard hb
        have hlast : ∀ ch ∈ (parse_indentation_level line).2.getLast?, pyIsWS ch = false := by
          rw [parse_indentation_level]
          exact pyStrip_getLast?_not _
        have hst' : StInv (stepState st (parse_indentation_level line).1
            (parse_indentation_level line).2) := stepState_StInv hst hraw hlast
        rcases List.mem_cons.1 hp with rfl | hp
        · exact stepPath_pathOK hst' ⟨_, stepState_levels_self _ _ _, newSegName_ne_nil _ _ _⟩
        · exact ih _ res' hst' hres' p hp

lemma initState_StInv : StInv initState := by
  intro i s hs
  simp [initState] at hs

lemma runLines_none_iff :
    ∀ (lines : List (List Char)) (st : PState),
      runLines st lines = none ↔
        ∃ line ∈ lines, pyStrip (parse_indentation_level line).2 ≠ [] ∧
          50 ≤ (parse_indentation_level line).1 := by
  intro lines
  induction lines with
  | nil => intro st; simp [runLines]
  | cons line rest ih =>
    intro st
    by_cases hb : pyStrip (parse_indentation_level line).2 = []
    · simp only [runLines, stepLine_blank hb]
      rw [ih st]
      constructor
      · rintro ⟨l, hl, h⟩; exact ⟨l, List.mem_cons_of_mem _ hl, h⟩
      · rintro ⟨l, hl, h⟩
        rcases List.mem_cons.1 hl with rfl | hl
        · exact absurd hb h.1
        · exact ⟨l, hl, h⟩
    · by_cases hd : 50 ≤ (parse_indentation_level line).1
      · simp only [runLines, stepLine_deep hb hd]
        constructor
        · intro _; exact ⟨line, List.mem_cons_self _ _, hb, hd⟩
        · intro _; trivial
      · simp only [runLines, stepLine_main hb hd]
        rw [Option.map_eq_none', ih]
        constructor
        · rintro ⟨l, hl, h⟩; exact ⟨l, List.mem_cons_of_mem _ hl, h⟩
        · rintro ⟨l, hl, h⟩
          rcases List.mem_cons.1 hl with rfl | hl
          · exact absurd h.2 hd
          · exact ⟨l, hl, h⟩

/-! ### Toolbox: re-running the enumerator on flat lines -/

lemma formatCounter_no_underscore (n : Nat) : ∀ c ∈ formatCounter n, c ≠ '_' :=
  fun c hc => (isDigit_facts (formatCounter_digits n c hc)).2.1

lemma append_underscore_inj :
    ∀ (xs ys p q : List Char), (∀ c ∈ xs, c ≠ '_') → (∀ c ∈ ys, c ≠ '_') →
      xs ++ '_' :: p = ys ++ '_' :: q → p = q := by
  intro xs
  induction xs with
  | nil =>
    intro ys p q _ hys heq
    cases ys with
    | nil =>
      simp only [List.nil_append, List.cons.injEq, true_and] at heq
      exact heq
    | cons y ys' =>
      simp only [List.nil_append, List.cons_append, List.cons.injEq] at heq
      exact absurd heq.1.symm (hys y (by simp))
  | cons x xs' ih =>
    intro ys p q hxs hys heq
    cases ys with
    | nil =>
      injection heq with h1 _
      exact absurd h1 (hxs x (by simp))
    | cons y ys' =>
      injection heq with h1 h2
      exact ih ys' p q (fun c hc => hxs c (List.mem_cons_of_mem x hc))
        (fun c hc => hys c (List.mem_cons_of_mem y hc)) h2

lemma mem_renumberFlat :
    ∀ (ps : List (List Char)) (k : Nat) (r : List Char), r ∈ renumberFlat k ps →
      ∃ m q, q ∈ ps ∧ r = formatCounter m ++ '_' :: q := by
  intro ps
  induction ps with
  | nil => intro k r h; simp [renumberFlat] at h
  | cons p ps ih =>
    intro k r h
    rw [renumberFlat] at h
    rcases List.mem_cons.1 h with rfl | h
    · exact ⟨k + 1, p, List.mem_cons_self _ _, rfl⟩
    · rcases ih (k + 1) r h with ⟨m, q, hq, rfl⟩
      exact ⟨m, q, List.mem_cons_of_mem _ hq, rfl⟩

lemma renumberFlat_nodup :
    ∀ (ps : List (List Char)) (k : Nat), ps.Nodup → (renumberFlat k ps).Nodup := by
  intro ps
  induction ps with
  | nil => intro k _; simp [renumberFlat]
  | cons p ps ih =>
    intro k hnd
    rw [renumberFlat]
    refine List.nodup_cons.2 ⟨?_, ih (k + 1) (List.nodup_cons.1 hnd).2⟩
    intro hc
    rcases mem_renumberFlat ps (k + 1) _ hc with ⟨m, q, hq, heq⟩
    have hpq : p = q := append_underscore_inj _ _ _ _
      (formatCounter_no_underscore _) (formatCounter_no_underscore _) heq
    exact (List.nodup_cons.1 hnd).1 (hpq ▸ hq)

lemma runLines_flat :
    ∀ (ps : List (List Char)) (st : PState), (∀ p ∈ ps, FlatLine p) →
      runLines st ps = some (renumberFlat (st.counters 0) ps) := by
  intro ps
  induction ps with
  | nil => intro st _; rfl
  | cons p ps ih =>
    intro st hall
    rcases hall p (List.mem_cons_self _ _) with ⟨hparse, hstrip, hne, hrepl⟩
    have hb : ¬ pyStrip (parse_indentation_level p).2 = [] := by
      intro h
      have h' : pyStrip p = [] := by rw [hparse] at h; exact h
      rw [hstrip] at h'
      exact hne h'
    have hd : ¬ 50 ≤ (parse_indentation_level p).1 := by
      rw [hparse]
      simp
    simp only [runLines, stepLine_main hb hd, hparse]
    rw [ih _ (fun q hq => hall q (List.mem_cons_of_mem _ hq))]
    have hcount : (stepState st 0 p).counters 0 = st.counters 0 + 1 := by
      simp [stepState, incAt, resetFrom]
    have hname : newSegName st 0 p = formatCounter (st.counters 0 + 1) ++ '_' :: p := by
      rw [newSegName, hrepl]
      simp [incAt, resetFrom]
    have hpath : stepPath (stepState st 0 p) 0 = newSegName st 0 p := by
      have h0 : truthy ((stepState st 0 p).levels 0) = some (newSegName st 0 p) := by
        rw [stepState_levels_self]
        simp [truthy, newSegName_ne_nil st 0 p]
      rw [stepPath, (by decide : List.range (0 + 1) = [0])]
      simp only [List.filterMap_cons, h0, List.filterMap_nil]
      rfl
    rw [Option.map_some', hpath, hname, hcount, renumberFlat]

/-! ### Claim C1 -/

/-- Claim C1, counterexample: on the input `["Main Tag", "    Sub One",
"    Sub Two", "Second Main"]` the enumerator does not return the three-element
list the claim states, because every non-blank line (the parent line included)
appends its own path, so `01_Main_Tag` is also produced. -/
theorem claim1_counterexample :
    parse_indented_subtags_enumerate_all
      ["Main Tag".toList, "    Sub One".toList, "    Sub Two".toList, "Second Main".toList] ≠
    some ["01_Main_Tag::01_Sub_One".toList, "01_Main_Tag::02_Sub_Two".toList,
          "02_Second_Main".toList] := by decide

/-- Claim C1, amended: the enumerator computes indentation levels `[0,1,1,0]`
and returns `["01_Main_Tag", "01_Main_Tag::01_Sub_One", "01_Main_Tag::02_Sub_Two",
"02_Second_Main"]`, the parent line's own path included. -/
theorem claim1_amended :
    (["Main Tag".toList, "    Sub One".toList, "    Sub Two".toList,
      "Second Main".toList].map (fun l => (parse_indentation_level l).1) = [0, 1, 1, 0]) ∧
    parse_indented_subtags_enumerate_all
      ["Main Tag".toList, "    Sub One".toList, "    Sub Two".toList, "Second Main".toList] =
    some ["01_Main_Tag".toList, "01_Main_Tag::01_Sub_One".toList,
          "01_Main_Tag::02_Sub_Two".toList, "02_Second_Main".toList] := by
  exact ⟨by decide, by decide⟩

/-! ### Claim C2 -/

/-- Claim C2: for every input, the enumerator's output has no duplicates, is a
subsequence of the raw production list `results`, contains exactly the produced
paths, and lists them in the order of their first production. -/
theorem claim2_dedup :
    ∀ (lines out : List (List Char)),
      parse_indented_subtags_enumerate_all lines = some out →
      out.Nodup ∧
      ∃ res, runLines initState lines = some res ∧
        List.Sublist out res ∧ (∀ r, r ∈ out ↔ r ∈ res) ∧
        out.Pairwise (fun a b => firstIndexOf res a < firstIndexOf res b) := by
  intro lines out h
  rw [parse_indented_subtags_enumerate_all] at h
  rcases Option.map_eq_some'.1 h with ⟨res, hres, rfl⟩
  refine ⟨dedupSeen_nodup res [], res, hres, dedupSeen_sublist res [], ?_,
    dedupSeen_pairwise res []⟩
  intro r
  rw [mem_dedupSeen]
  simp

/-- Claim C2, witness: on `["    x", "x"]` the two lines produce the same path
`01_x` and the duplicate is dropped. -/
theorem claim2_dedup_witness :
    (["01_x".toList] : List (List Char)).Nodup ∧
    ∃ res, runLines initState ["    x".toList, "x".toList] = some res ∧
      List.Sublist [("01_x".toList : List Char)] res ∧
      (∀ r, r ∈ (["01_x".toList] : List (List Char)) ↔ r ∈ res) ∧
      (["01_x".toList] : List (List Char)).Pairwise
        (fun a b => firstIndexOf res a < firstIndexOf res b) :=
  claim2_dedup ["    x".toList, "x".toList] ["01_x".toList] (by decide)

/-! ### Claim C3 -/

/-- Claim C3, counterexample: a line indented 200 spaces (level 50) makes the
loop evaluate `counters[50] += 1` on a 50-element list, raising `IndexError`;
the enumerator therefore does not accept every line without error. -/
theorem claim3_counterexample :
    parse_indented_subtags_enumerate_all [List.replicate 200 ' ' ++ ['x']] = none := by decide

/-- Claim C3, amended: the enumerator fails exactly on inputs containing a
non-blank line of indentation level at least 50; every line of level at most 49
is accepted (skipped as blank or normalized), so depths of 50 levels (0-49) are
supported, witnessed by a level-49 line. -/
theorem claim3_amended :
    (∀ lines : List (List Char),
      parse_indented_subtags_enumerate_all lines = none ↔
        ∃ line ∈ lines, pyStrip (parse_indentation_level line).2 ≠ [] ∧
          50 ≤ (parse_indentation_level line).1) ∧
    (parse_indentation_level (List.replicate 196 ' ' ++ ['x'])).1 = 49 ∧
    parse_indented_subtags_enumerate_all [List.replicate 196 ' ' ++ ['x']] =
      some ["01_x".toList] := by
  refine ⟨?_, by decide, by decide⟩
  intro lines
  rw [parse_indented_subtags_enumerate_all, Option.map_eq_none', runLines_none_iff]

/-! ### Claim C4 -/

/-- Claim C4: a non-blank line of in-bounds level is processed without error;
its path joins, in level order, exactly the stored segment names of levels
`0..level` (the new one at `level` included), silently omitting every level
with no stored segment, and the levels below the line's level keep their
last-seen stored names. -/
theorem claim4_missing_ancestors :
    ∀ (st : PState) (line : List Char),
      pyStrip (parse_indentation_level line).2 ≠ [] →
      (parse_indentation_level line).1 < 50 →
      (∀ i s, st.levels i = some s → s ≠ []) →
      ∃ st' path, stepLine st line = some (st', some path) ∧
        path = pyJoin (((List.range ((parse_indentation_level line).1 + 1)).filterMap
          st'.levels)) ∧
        (∀ i, i < (parse_indentation_level line).1 → st'.levels i = st.levels i) ∧
        st'.levels (parse_indentation_level line).1 =
          some (newSegName st (parse_indentation_level line).1
            (parse_indentation_level line).2) := by
  intro st line h1 h2 hinv
  refine ⟨_, _, stepLine_main h1 (not_le.2 h2), ?_, ?_, stepState_levels_self _ _ _⟩
  · rw [stepPath]
    congr 1
    apply List.filterMap_congr
    intro i _
    cases hsi : (stepState st (parse_indentation_level line).1
        (parse_indentation_level line).2).levels i with
    | none => simp [truthy]
    | some s =>
      have hsne : s ≠ [] := by
        simp only [stepState, setAt] at hsi
        by_cases hi : i = (parse_indentation_level line).1
        · rw [if_pos hi] at hsi
          cases hsi
          exact newSegName_ne_nil _ _ _
        · rw [if_neg hi] at hsi
          simp only [resetFromO] at hsi
          by_cases hr : (parse_indentation_level line).1 + 1 ≤ i ∧ i < 50
          · rw [if_pos hr] at hsi; cases hsi
          · rw [if_neg hr] at hsi
            exact hinv i s hsi
      simp [truthy, hsne]
  · intro i hi
    simp only [stepState, setAt, resetFromO]
    rw [if_neg (Nat.ne_of_lt hi), if_neg ?_]
    intro hc
    omega

/-- Claim C4, witness: a level-2 line entering the initial state (no level-0 or
level-1 segment ever recorded) is processed without error and its path simply
omits the missing ancestor levels; concretely `["        Deep"]` yields
`01_Deep` alone. -/
theorem claim4_witness :
    parse_indented_subtags_enumerate_all ["        Deep".toList] = some ["01_Deep".toList] ∧
    ∃ st' path, stepLine initState "        Deep".toList = some (st', some path) ∧
      path = pyJoin (((List.range ((parse_indentation_level "        Deep".toList).1 + 1)).filterMap
        st'.levels)) ∧
      (∀ i, i < (parse_indentation_level "        Deep".toList).1 →
        st'.levels i = initState.levels i) ∧
      st'.levels (parse_indentation_level "        Deep".toList).1 =
        some (newSegName initState (parse_indentation_level "        Deep".toList).1
          (parse_indentation_level "        Deep".toList).2) :=
  ⟨by decide, claim4_missing_ancestors initState "        Deep".toList (by decide) (by decide)
    (fun i s h => Option.noConfusion h)⟩

/-! ### Claim C5 -/

/-- Claim C5: the indentation level is the leading-whitespace weight (1 per
space, 4 per tab, stopping at the first other character) divided by 4, and one
leading tab yields the same level as four leading spaces on an otherwise
identical line. -/
theorem claim5_level_weights :
    (∀ line : List Char, (parse_indentation_level line).1 = leadingSpaces line / 4) ∧
    (∀ rest : List Char,
      (parse_indentation_level ('\t' :: rest)).1 =
        (parse_indentation_level (' ' :: ' ' :: ' ' :: ' ' :: rest)).1) := by
  constructor
  · intro line; rfl
  · intro rest
    show leadingSpaces ('\t' :: rest) / 4 = leadingSpaces (' ' :: ' ' :: ' ' :: ' ' :: rest) / 4
    have h1 : ∀ l : List Char, leadingSpaces (' ' :: l) = 1 + leadingSpaces l := by
      intro l; rw [leadingSpaces, if_pos rfl]
    have h2 : ∀ l : List Char, leadingSpaces ('\t' :: l) = 4 + leadingSpaces l := by
      intro l; rw [leadingSpaces, if_neg (by decide), if_pos rfl]
    rw [h2, h1, h1, h1, h1]
    omega

/-! ### Claim C6 -/

lemma runLines_skip_blank {b : List Char}
    (hb : pyStrip (parse_indentation_level b).2 = []) :
    ∀ (pre post : List (List Char)) (st : PState),
      runLines st (pre ++ b :: post) = runLines st (pre ++ post) := by
  intro pre
  induction pre with
  | nil =>
    intro post st
    simp only [List.nil_append, runLines, stepLine_blank hb]
  | cons a pre ih =>
    intro post st
    simp only [List.cons_append, runLines]
    cases hsa : stepLine st a with
    | none => rfl
    | some pr =>
      rcases pr with ⟨st', op⟩
      cases op with
      | none => exact ih post st'
      | some path =>
        exact congrArg (Option.map fun x => path :: x) (ih post st')

/-- Claim C6: inserting a whitespace-only line anywhere leaves the enumerator's
output unchanged; such a line produces no path and affects no counter or
stored segment. -/
theorem claim6_blank_lines :
    ∀ (pre post : List (List Char)) (b : List Char),
      (∀ c ∈ b, pyIsWS c = true) →
      parse_indented_subtags_enumerate_all (pre ++ b :: post) =
        parse_indented_subtags_enumerate_all (pre ++ post) := by
  intro pre post b hb
  have hb2 : pyStrip (parse_indentation_level b).2 = [] := by
    rw [parse_snd_blank hb]
    exact pyStrip_nil
  rw [parse_indented_subtags_enumerate_all, parse_indented_subtags_enumerate_all,
    runLines_skip_blank hb2]

/-- Claim C6, witness: inserting the whitespace-only line `" \t "` between
`"x"` and `"y"` does not change the output. -/
theorem claim6_witness :
    (∀ c ∈ " \t ".toList, pyIsWS c = true) ∧
    parse_indented_subtags_enumerate_all (["x".toList] ++ " \t ".toList :: ["y".toList]) =
      parse_indented_subtags_enumerate_all (["x".toList] ++ ["y".toList]) :=
  ⟨by decide, claim6_blank_lines ["x".toList] ["y".toList] " \t ".toList (by decide)⟩

/-! ### Claim C7 -/

/-- Claim C7: `getData` strips the parent-tag text and replaces its spaces by
underscores; when the result is empty every enumerated path is returned bare,
and when it is non-empty every path is returned prefixed with `parent::`. -/
theorem claim7_parent_composition :
    ∀ (parentText : List Char) (lines : List (List Char)),
      (replace_spaces_with_underscores (pyStrip parentText) = [] →
        getData parentText lines = parse_indented_subtags_enumerate_all lines) ∧
      (replace_spaces_with_underscores (pyStrip parentText) ≠ [] →
        getData parentText lines =
          (parse_indented_subtags_enumerate_all lines).map
            (List.map (fun path =>
              replace_spaces_with_underscores (pyStrip parentText) ++ ':' :: ':' :: path))) := by
  intro pt lines
  constructor
  · intro hp
    simp [getData, hp]
  · intro hp
    simp only [getData]
    have hif : ∀ path : List Char,
        (if replace_spaces_with_underscores (pyStrip pt) = [] then path
         else replace_spaces_with_underscores (pyStrip pt) ++ ':' :: ':' :: path) =
        replace_spaces_with_underscores (pyStrip pt) ++ ':' :: ':' :: path :=
      fun path => if_neg hp
    simp only [hif]

/-- Claim C7, witness: the parent text `"My Parent"` prefixes every path as
`My_Parent::`, and the empty parent text leaves paths bare. -/
theorem claim7_witness :
    getData "My Parent".toList ["a".toList] = some ["My_Parent::01_a".toList] ∧
    getData [] ["a".toList] = some ["01_a".toList] := by
  constructor
  · rw [(claim7_parent_composition "My Parent".toList ["a".toList]).2 (by decide)]
    decide
  · rw [(claim7_parent_composition [] ["a".toList]).1 (by decide)]
    decide

/-! ### Claim C8 -/

lemma formatCounter_two_digits : ∀ c : Nat, c ≤ 99 → (formatCounter c).length = 2 := by
  decide

/-- Claim C8: every produced path is a join of segments, each a `formatCounter`
rendering of a sibling counter of at least 1, an underscore, and a
space-replaced content; for counters up to 99 the rendering is exactly two
digits, and 100 siblings at one level do not make the enumerator fail. -/
theorem claim8_segment_format :
    (∀ (lines out : List (List Char)),
      parse_indented_subtags_enumerate_all lines = some out →
      ∀ p ∈ out, ∃ segs, segs ≠ [] ∧ p = pyJoin segs ∧
        ∀ s ∈ segs, ∃ c content, 1 ≤ c ∧
          s = formatCounter c ++ '_' :: replace_spaces_with_underscores content ∧
          (c ≤ 99 → (formatCounter c).length = 2)) ∧
    parse_indented_subtags_enumerate_all (List.replicate 100 ['a']) ≠ none := by
  constructor
  · intro lines out h p hp
    rw [parse_indented_subtags_enumerate_all] at h
    rcases Option.map_eq_some'.1 h with ⟨res, hres, rfl⟩
    have hpres : p ∈ res := (dedupSeen_sublist res []).subset hp
    rcases runLines_pathOK lines initState res initState_StInv hres p hpres with
      ⟨segs, hne, rfl, hall⟩
    refine ⟨segs, hne, rfl, ?_⟩
    intro s hs
    rcases hall s hs with ⟨c, w, hc, rfl, hwne, hwns, hwl⟩
    have hw : replace_spaces_with_underscores w = w :=
      (List.map_congr_left (fun a ha => if_neg (hwns a ha))).trans (List.map_id _)
    exact ⟨c, w, hc, by rw [hw], fun hle => formatCounter_two_digits c hle⟩
  · rw [parse_indented_subtags_enumerate_all]
    intro hcon
    rw [Option.map_eq_none'] at hcon
    rcases (runLines_none_iff _ initState).1 hcon with ⟨line, hmem, _, hlvl⟩
    have hla : line = ['a'] := List.eq_of_mem_replicate hmem
    subst hla
    exact absurd hlvl (by decide)

/-- Claim C8, witness: the single path produced from `"a b"` decomposes into a
well-formed `formatCounter`-numbered segment. -/
theorem claim8_witness :
    ∃ segs, segs ≠ [] ∧ "01_a_b".toList = pyJoin segs ∧
      ∀ s ∈ segs, ∃ c content, 1 ≤ c ∧
        s = formatCounter c ++ '_' :: replace_spaces_with_underscores content ∧
        (c ≤ 99 → (formatCounter c).length = 2) :=
  claim8_segment_format.1 ["a b".toList] ["01_a_b".toList] (by decide)
    "01_a_b".toList (by decide)

/-! ### Claim C9 -/

/-- Claim C9: re-running the enumerator on its own output (each path re-entering
as a flat, unindented line) succeeds and yields each path unchanged except for a
fresh level-0 sibling number put in front of it. -/
theorem claim9_rerun :
    ∀ (lines out : List (List Char)),
      parse_indented_subtags_enumerate_all lines = some out →
      parse_indented_subtags_enumerate_all out = some (renumberFlat 0 out) := by
  intro lines out h
  rw [parse_indented_subtags_enumerate_all] at h
  rcases Option.map_eq_some'.1 h with ⟨res, hres, rfl⟩
  have hflat : ∀ p ∈ dedupSeen [] res, FlatLine p := by
    intro p hp
    have hpres : p ∈ res := (dedupSeen_sublist res []).subset hp
    exact (pathOK_flat (runLines_pathOK lines initState res initState_StInv hres p hpres)).1
  have hnd : (dedupSeen [] res).Nodup := dedupSeen_nodup res []
  rw [parse_indented_subtags_enumerate_all, runLines_flat _ initState hflat, Option.map_some']
  congr 1
  exact dedupSeen_eq_self _ [] (renumberFlat_nodup _ _ hnd) (by simp)

/-- Claim C9, witness: re-running on the output of `["x y", "z"]` prefixes each
path with a fresh level-0 counter. -/
theorem claim9_witness :
    parse_indented_subtags_enumerate_all ["01_x_y".toList, "02_z".toList] =
      some (renumberFlat 0 ["01_x_y".toList, "02_z".toList]) :=
  claim9_rerun ["x y".toList, "z".toList] ["01_x_y".toList, "02_z".toList] (by decide)

/-! ### Claim C10 -/

/-- Claim C10: every output path is non-empty and contains no space character;
spaces of the content are replaced by underscores, while other interior
whitespace such as a tab survives into the output, as the concrete run on
`"a\tb"` shows. -/
theorem claim10_no_spaces :
    (∀ (lines out : List (List Char)),
      parse_indented_subtags_enumerate_all lines = some out →
      ∀ p ∈ out, p ≠ [] ∧ ∀ ch ∈ p, ch ≠ ' ') ∧
    parse_indented_subtags_enumerate_all ["a\tb".toList] = some ["01_a\tb".toList] := by
  constructor
  · intro lines out h p hp
    rw [parse_indented_subtags_enumerate_all] at h
    rcases Option.map_eq_some'.1 h with ⟨res, hres, rfl⟩
    have hpres : p ∈ res := (dedupSeen_sublist res []).subset hp
    have hf := pathOK_flat (runLines_pathOK lines initState res initState_StInv hres p hpres)
    exact ⟨hf.1.2.2.1, hf.2⟩
  · decide

/-- Claim C10, witness: the path produced from `"a b"` is non-empty and
space-free. -/
theorem claim10_witness :
    "01_a_b".toList ≠ [] ∧ ∀ ch ∈ "01_a_b".toList, ch ≠ ' ' :=
  claim10_no_spaces.1 ["a b".toList] ["01_a_b".toList] (by decide)
    "01_a_b".toList (by decide)

end BulkSubtags
